import Mathlib

/-!
Verification of src/client/physmem2profit/physmem2minidump.py.

The file shallowly embeds the parts of the program that the verified
properties are about:

  * the interval reconciliation step of read_memory_fast (lines 71-129),
    which relies on the python-intervals package
    (I.closedopen, I.IntervalDict, interval union and intersection);
    interval values are embedded as finite lists of half-open Nat ranges
    and the canonical atom list of an interval value is recovered by
    normalize below;
  * the read-and-fill phase of read_memory_fast (lines 105-129);
  * ensureFileExist (lines 147-156);
  * read_secure_world (lines 159-167) and the page scan of _cg
    (lines 170-207);
  * the orchestrator _dump / dump (lines 210-324), with the external
    collaborators (rekall session, fsminidump builder, os module)
    abstracted as parameters of an environment record.

Python ints are embedded as Nat (all quantities involved are addresses,
sizes or counters that the program keeps non-negative); fallible actions
return Except; byte strings are lists of Nat.
-/

namespace Physmem

/-- A half-open address range [start, end), the embedding of
I.closedopen(start, end) from the intervals package and of the
(run.start, run.end) pairs of read_memory_fast. -/
abbrev Range := Nat × Nat

/-- Address membership in a half-open range. -/
def inR (a : Nat) (r : Range) : Bool := decide (r.1 ≤ a) && decide (a < r.2)

/-- Address membership in the union of a list of ranges. -/
def covers (rs : List Range) (a : Nat) : Bool := rs.any (inR a)

/-- The two ranges share at least one address: the embedding of
mem & mod != I.empty() for closed-open intervals. -/
def rangesOverlap (r s : Range) : Bool := decide (max r.1 s.1 < min r.2 s.2)

theorem inR_iff {a : Nat} {r : Range} : inR a r = true ↔ r.1 ≤ a ∧ a < r.2 := by
  simp [inR]

theorem covers_iff {rs : List Range} {a : Nat} :
    covers rs a = true ↔ ∃ r ∈ rs, r.1 ≤ a ∧ a < r.2 := by
  simp [covers, List.any_eq_true, inR_iff]

theorem covers_append {rs ss : List Range} {a : Nat} :
    covers (rs ++ ss) a = (covers rs a || covers ss a) := by
  simp [covers]

theorem covers_flatMap {β : Type} {l : List β} {f : β → List Range} {a : Nat} :
    covers (l.flatMap f) a = true ↔ ∃ x ∈ l, covers (f x) a = true := by
  simp [covers, List.any_eq_true]

theorem covers_eq_of_perm {rs ss : List Range} (h : rs.Perm ss) (a : Nat) :
    covers rs a = covers ss a := by
  rcases hb : covers ss a with _ | _
  · rcases hc : covers rs a with _ | _
    · rfl
    · rw [covers_iff] at hc
      obtain ⟨r, hr, hra⟩ := hc
      have : covers ss a = true := covers_iff.2 ⟨r, h.mem_iff.1 hr, hra⟩
      rw [this] at hb
      exact hb
  · rw [covers_iff] at hb
    obtain ⟨r, hr, hra⟩ := hb
    exact covers_iff.2 ⟨r, h.mem_iff.2 hr, hra⟩

theorem rangesOverlap_iff {r s : Range} :
    rangesOverlap r s = true ↔ ∃ a, inR a r = true ∧ inR a s = true := by
  constructor
  · intro h
    refine ⟨max r.1 s.1, ?_, ?_⟩ <;> · simp only [rangesOverlap, decide_eq_true_eq] at h
                                       simp only [inR_iff]
                                       omega
  · rintro ⟨a, har, has⟩
    simp only [inR_iff] at har has
    simp only [rangesOverlap, decide_eq_true_eq]
    omega

theorem rangesOverlap_comm (r s : Range) : rangesOverlap r s = rangesOverlap s r := by
  simp [rangesOverlap, Nat.max_comm, Nat.min_comm]

/-! ### Stable insertion sort

The embedding of the stable builtin sorted() of Python: a total Bool
comparison le places an element before the first list element it
compares le to. -/

/-- Insert an element before the first position whose element does not
compare strictly below it. -/
def insertLe {α : Type} (le : α → α → Bool) (a : α) : List α → List α
  | [] => [a]
  | b :: l => if le a b then a :: b :: l else b :: insertLe le a l

/-- Stable insertion sort with a Bool comparison, the embedding of
sorted() as used at lines 72, 79 and 108 of the source. -/
def sortLe {α : Type} (le : α → α → Bool) : List α → List α
  | [] => []
  | a :: l => insertLe le a (sortLe le l)

theorem insertLe_perm {α : Type} (le : α → α → Bool) (a : α) (l : List α) :
    (insertLe le a l).Perm (a :: l) := by
  induction l with
  | nil => simp [insertLe]
  | cons b t ih =>
    simp only [insertLe]
    by_cases h : le a b = true
    · simp [h]
    · simp only [if_neg h]
      exact (ih.cons b).trans (List.Perm.swap a b t)

theorem sortLe_perm {α : Type} (le : α → α → Bool) (l : List α) :
    (sortLe le l).Perm l := by
  induction l with
  | nil => simp [sortLe]
  | cons a t ih =>
    exact ((insertLe_perm le a (sortLe le t)).trans (ih.cons a))

theorem mem_sortLe {α : Type} {le : α → α → Bool} {l : List α} {x : α} :
    x ∈ sortLe le l ↔ x ∈ l :=
  (sortLe_perm le l).mem_iff

theorem pairwise_insertLe {α : Type} {le : α → α → Bool}
    (htrans : ∀ x y z : α, le x y = true → le y z = true → le x z = true)
    (htot : ∀ x y : α, (le x y || le y x) = true) {l : List α} {a : α}
    (h : l.Pairwise (fun x y => le x y = true)) :
    (insertLe le a l).Pairwise (fun x y => le x y = true) := by
  induction l with
  | nil => simp [insertLe]
  | cons b t ih =>
    rcases List.pairwise_cons.1 h with ⟨hb, ht⟩
    simp only [insertLe]
    by_cases hab : le a b = true
    · simp only [if_pos hab]
      refine List.Pairwise.cons ?_ h
      intro y hy
      rcases List.mem_cons.1 hy with rfl | hyt
      · exact hab
      · exact htrans a b y hab (hb y hyt)
    · simp only [if_neg hab]
      refine List.Pairwise.cons ?_ (ih ht)
      intro y hy
      have h2 := htot a b
      rw [Bool.or_eq_true] at h2
      rcases List.mem_cons.1 ((insertLe_perm le a t).mem_iff.1 hy) with rfl | hyt
      · rcases h2 with h2 | h2
        · exact absurd h2 hab
        · exact h2
      · exact hb y hyt

theorem pairwise_sortLe {α : Type} {le : α → α → Bool}
    (htrans : ∀ x y z : α, le x y = true → le y z = true → le x z = true)
    (htot : ∀ x y : α, (le x y || le y x) = true) (l : List α) :
    (sortLe le l).Pairwise (fun x y => le x y = true) := by
  induction l with
  | nil => simp [sortLe]
  | cons a t ih => exact pairwise_insertLe htrans htot ih

/-! ### String comparison by code point

Python compares str values lexicographically by code point; these are the
comparisons behind sorted() on the (path, base, size) and
(start, end, kind) tuples of the source. -/

/-- Code-point lexicographic order (non-strict) on character lists. -/
def charsLe : List Char → List Char → Bool
  | [], _ => true
  | _ :: _, [] => false
  | a :: s, b :: t =>
    if a.toNat < b.toNat then true
    else if b.toNat < a.toNat then false
    else charsLe s t

/-- Code-point lexicographic order (strict) on character lists. -/
def charsLt : List Char → List Char → Bool
  | [], [] => false
  | [], _ :: _ => true
  | _ :: _, [] => false
  | a :: s, b :: t =>
    if a.toNat < b.toNat then true
    else if b.toNat < a.toNat then false
    else charsLt s t

/-- Python string comparison, non-strict. -/
def strLe (s t : String) : Bool := charsLe s.data t.data

/-- Python string comparison, strict. -/
def strLt (s t : String) : Bool := charsLt s.data t.data

theorem charsLe_trans : ∀ (s t u : List Char),
    charsLe s t = true → charsLe t u = true → charsLe s u = true
  | [], _, _, _, _ => rfl
  | _ :: _, [], _, hst, _ => by simp [charsLe] at hst
  | _ :: _, _ :: _, [], _, htu => by simp [charsLe] at htu
  | a :: s, b :: t, c :: u, hst, htu => by
    simp only [charsLe] at hst htu ⊢
    split_ifs at hst htu ⊢ <;> first
      | rfl
      | omega
      | (exact charsLe_trans s t u hst htu)

theorem charsLe_total : ∀ (s t : List Char), (charsLe s t || charsLe t s) = true
  | [], _ => by simp [charsLe]
  | _ :: _, [] => by simp [charsLe]
  | a :: s, b :: t => by
    simp only [charsLe]
    split_ifs <;> first | (exact charsLe_total s t) | simp

theorem strLe_trans (s t u : String) :
    strLe s t = true → strLe t u = true → strLe s u = true :=
  charsLe_trans s.data t.data u.data

theorem strLe_total (s t : String) : (strLe s t || strLe t s) = true :=
  charsLe_total s.data t.data

/-! ### The comparison keys used by sorted() in the source -/

/-- Lexicographic comparison of (start, end) pairs: the order used by
mem_list = sorted([(run.start, run.end) ...]) at line 79. -/
def leR (r s : Range) : Bool :=
  decide (r.1 < s.1) || (decide (r.1 = s.1) && decide (r.2 ≤ s.2))

/-- An operation tuple (start, end, kind) of read_memory_fast, where kind
is the Python string "pad" or "mem" (lines 99-103). -/
abbrev Op := Nat × Nat × String

/-- Lexicographic comparison of operation tuples: the order used by
sorted(operations) at line 108.  The third component compares as a Python
string. -/
def leOp (x y : Op) : Bool :=
  decide (x.1 < y.1) ||
    (decide (x.1 = y.1) &&
      (decide (x.2.1 < y.2.1) || (decide (x.2.1 = y.2.1) && strLe x.2.2 y.2.2)))

/-- A loaded-module record (dll_path, base, size) as produced by
read_modulelist (lines 136-141). -/
abbrev Module := String × Nat × Nat

/-- Lexicographic comparison of module tuples: the order used by
module_list = sorted(module_list) at line 72 (path compares as a Python
string first). -/
def leMod (x y : Module) : Bool :=
  strLt x.1 y.1 ||
    (decide (x.1 = y.1) &&
      (decide (x.2.1 < y.2.1) || (decide (x.2.1 = y.2.1) && decide (x.2.2 ≤ y.2.2))))

theorem leR_trans (x y z : Range) :
    leR x y = true → leR y z = true → leR x z = true := by
  simp only [leR, Bool.or_eq_true, Bool.and_eq_true, decide_eq_true_eq]
  omega

theorem leR_total (x y : Range) : (leR x y || leR y x) = true := by
  simp only [leR, Bool.or_eq_true, Bool.and_eq_true, decide_eq_true_eq]
  omega

theorem leOp_trans (x y z : Op) :
    leOp x y = true → leOp y z = true → leOp x z = true := by
  simp only [leOp, Bool.or_eq_true, Bool.and_eq_true, decide_eq_true_eq]
  rintro (h1 | ⟨h1, h2 | ⟨h2, h3⟩⟩) (h4 | ⟨h4, h5 | ⟨h5, h6⟩⟩) <;>
    first
      | (left; omega)
      | (right; constructor; · omega
         first
           | (left; omega)
           | (right; exact ⟨by omega, strLe_trans _ _ _ h3 h6⟩))

theorem leOp_total (x y : Op) : (leOp x y || leOp y x) = true := by
  simp only [leOp, Bool.or_eq_true, Bool.and_eq_true, decide_eq_true_eq]
  rcases Nat.lt_trichotomy x.1 y.1 with h | h | h
  · exact Or.inl (Or.inl h)
  · rcases Nat.lt_trichotomy x.2.1 y.2.1 with h2 | h2 | h2
    · exact Or.inl (Or.inr ⟨h, Or.inl h2⟩)
    · have h3 := strLe_total x.2.2 y.2.2
      rw [Bool.or_eq_true] at h3
      rcases h3 with h3 | h3
      · exact Or.inl (Or.inr ⟨h, Or.inr ⟨h2, h3⟩⟩)
      · exact Or.inr (Or.inr ⟨h.symm, Or.inr ⟨h2.symm, h3⟩⟩)
    · exact Or.inr (Or.inr ⟨h.symm, Or.inl h2⟩)
  · exact Or.inr (Or.inl h)

theorem leOp_imp_start {x y : Op} (h : leOp x y = true) : x.1 ≤ y.1 := by
  simp only [leOp, Bool.or_eq_true, Bool.and_eq_true, decide_eq_true_eq] at h
  omega

theorem leR_imp_start {x y : Range} (h : leR x y = true) : x.1 ≤ y.1 := by
  simp only [leR, Bool.or_eq_true, Bool.and_eq_true, decide_eq_true_eq] at h
  omega

/-! ### Canonical atom lists

The intervals package keeps every interval value as a sorted list of
maximal, pairwise separated, nonempty atomic intervals; iterating over an
interval (list(filling), line 100) yields exactly those atoms.  normalize
below rebuilds that canonical list from an arbitrary list of half-open
ranges with the same union of addresses. -/

/-- Helper: extend the current atom with every following range that
overlaps or touches it; emit it when a real gap follows. -/
def mergeAdjAux (cur : Range) : List Range → List Range
  | [] => [cur]
  | r :: rest =>
    if r.1 ≤ cur.2 then mergeAdjAux (cur.1, max cur.2 r.2) rest
    else cur :: mergeAdjAux r rest

/-- Canonical atom list of a finite union of half-open ranges: drop the
empty ranges, sort by endpoints, merge overlapping or touching ranges. -/
def normalize (rs : List Range) : List Range :=
  match sortLe leR (rs.filter (fun r => decide (r.1 < r.2))) with
  | [] => []
  | r :: rest => mergeAdjAux r rest

/-- The shape invariant of a canonical atom list: every atom nonempty and
a nonempty gap between consecutive atoms. -/
def Canon : List Range → Prop
  | [] => True
  | [r] => r.1 < r.2
  | r :: s :: rest => r.1 < r.2 ∧ r.2 < s.1 ∧ Canon (s :: rest)

theorem bool_eq_of_iff {a b : Bool} (h : a = true ↔ b = true) : a = b := by
  rcases a <;> rcases b <;> simp_all

theorem covers_cons {r : Range} {rs : List Range} {a : Nat} :
    covers (r :: rs) a = (inR a r || covers rs a) := by
  simp [covers]

theorem covers_mergeAdjAux {l : List Range} :
    ∀ {cur : Range}, (cur :: l).Pairwise (fun x y => x.1 ≤ y.1) →
    ∀ a, covers (mergeAdjAux cur l) a = (inR a cur || covers l a) := by
  induction l with
  | nil => intro cur _ a; simp [mergeAdjAux, covers]
  | cons r rest ih =>
    intro cur h a
    rcases List.pairwise_cons.1 h with ⟨hcur, hrl⟩
    rcases List.pairwise_cons.1 hrl with ⟨hr, hrest⟩
    simp only [mergeAdjAux]
    by_cases hle : r.1 ≤ cur.2
    · simp only [if_pos hle]
      have hpw : ((cur.1, max cur.2 r.2) :: rest).Pairwise (fun x y => x.1 ≤ y.1) := by
        refine List.Pairwise.cons ?_ hrest
        intro y hy
        exact hcur y (List.mem_cons_of_mem r hy)
      rw [ih hpw a, covers_cons]
      have h1 : cur.1 ≤ r.1 := hcur r (List.mem_cons_self r rest)
      have key : inR a (cur.1, max cur.2 r.2) = (inR a cur || inR a r) := by
        apply bool_eq_of_iff
        simp only [Bool.or_eq_true, inR_iff]
        omega
      rw [key, Bool.or_assoc]
    · simp only [if_neg hle]
      rw [covers_cons, ih hrl a, covers_cons]

theorem mergeAdjAux_head : ∀ (l : List Range) (cur : Range),
    ∃ e tl, mergeAdjAux cur l = (cur.1, e) :: tl ∧ cur.2 ≤ e
  | [], cur => ⟨cur.2, [], by simp [mergeAdjAux], Nat.le_refl _⟩
  | r :: rest, cur => by
    simp only [mergeAdjAux]
    by_cases hle : r.1 ≤ cur.2
    · simp only [if_pos hle]
      obtain ⟨e, tl, heq, hee⟩ := mergeAdjAux_head rest (cur.1, max cur.2 r.2)
      exact ⟨e, tl, heq, le_trans (Nat.le_max_left _ _) hee⟩
    · simp only [if_neg hle]
      exact ⟨cur.2, mergeAdjAux r rest, by simp, Nat.le_refl _⟩

theorem canon_mergeAdjAux {l : List Range} :
    ∀ {cur : Range}, (∀ r ∈ cur :: l, r.1 < r.2) →
    (cur :: l).Pairwise (fun x y => x.1 ≤ y.1) →
    Canon (mergeAdjAux cur l) := by
  induction l with
  | nil =>
    intro cur hne _
    simpa [mergeAdjAux, Canon] using hne cur (List.mem_cons_self cur [])
  | cons r rest ih =>
    intro cur hne h
    rcases List.pairwise_cons.1 h with ⟨hcur, hrl⟩
    rcases List.pairwise_cons.1 hrl with ⟨hr, hrest⟩
    simp only [mergeAdjAux]
    by_cases hle : r.1 ≤ cur.2
    · simp only [if_pos hle]
      refine ih ?_ ?_
      · intro x hx
        rcases List.mem_cons.1 hx with rfl | hx2
        · have := hne cur (List.mem_cons_self cur _)
          simp only []
          have := hne r (List.mem_cons_of_mem cur (List.mem_cons_self r rest))
          omega
        · exact hne x (List.mem_cons_of_mem cur (List.mem_cons_of_mem r hx2))
      · refine List.Pairwise.cons ?_ hrest
        intro y hy
        exact hcur y (List.mem_cons_of_mem r hy)
    · simp only [if_neg hle]
      obtain ⟨e, tl, heq, _⟩ := mergeAdjAux_head rest r
      have hcanon : Canon (mergeAdjAux r rest) := by
        refine ih ?_ hrl
        intro x hx
        exact hne x (List.mem_cons_of_mem cur hx)
      rw [heq] at hcanon ⊢
      exact ⟨hne cur (List.mem_cons_self cur _), by omega, hcanon⟩

theorem canon_headlt : ∀ {s : Range} {rest : List Range}, Canon (s :: rest) → s.1 < s.2
  | _, [], h => h
  | _, _ :: _, h => h.1

theorem canon_tail : ∀ {s : Range} {rest : List Range}, Canon (s :: rest) → Canon rest
  | _, [], _ => trivial
  | _, _ :: _, h => h.2.2

theorem canon_pairwise : ∀ {l : List Range}, Canon l →
    l.Pairwise (fun x y => x.2 < y.1)
  | [], _ => List.Pairwise.nil
  | [_], _ => by simp
  | r :: s :: rest, h => by
    have ihp := canon_pairwise h.2.2
    refine List.Pairwise.cons ?_ ihp
    intro y hy
    rcases List.mem_cons.1 hy with rfl | hyr
    · exact h.2.1
    · have hs : s.1 < s.2 := canon_headlt h.2.2
      have h2 := (List.pairwise_cons.1 ihp).1 y hyr
      have h3 := h.2.1
      omega

theorem covers_filter_nonempty {rs : List Range} {a : Nat} :
    covers (rs.filter (fun r => decide (r.1 < r.2))) a = covers rs a := by
  apply bool_eq_of_iff
  simp only [covers_iff]
  constructor
  · rintro ⟨r, hr, hra⟩
    exact ⟨r, (List.mem_filter.1 hr).1, hra⟩
  · rintro ⟨r, hr, hra⟩
    refine ⟨r, List.mem_filter.2 ⟨hr, by simp; omega⟩, hra⟩

theorem covers_normalize (rs : List Range) (a : Nat) :
    covers (normalize rs) a = covers rs a := by
  have hperm := sortLe_perm leR (rs.filter (fun r => decide (r.1 < r.2)))
  have hbase : covers (sortLe leR (rs.filter (fun r => decide (r.1 < r.2)))) a
      = covers rs a := by
    rw [covers_eq_of_perm hperm a, covers_filter_nonempty]
  rcases hsl : sortLe leR (rs.filter (fun r => decide (r.1 < r.2))) with _ | ⟨r, rest⟩
  · rw [hsl] at hbase
    simp only [normalize, hsl]
    exact hbase
  · rw [hsl] at hbase
    simp only [normalize, hsl]
    have hpw : (r :: rest).Pairwise (fun x y => x.1 ≤ y.1) := by
      have := pairwise_sortLe leR_trans leR_total (rs.filter (fun r => decide (r.1 < r.2)))
      rw [hsl] at this
      exact this.imp (fun hxy => leR_imp_start hxy)
    rw [covers_mergeAdjAux hpw a, ← covers_cons]
    exact hbase

theorem canon_normalize (rs : List Range) : Canon (normalize rs) := by
  rcases hsl : sortLe leR (rs.filter (fun r => decide (r.1 < r.2))) with _ | ⟨r, rest⟩
  · simp only [normalize, hsl]
    trivial
  · simp only [normalize, hsl]
    have hpw : (r :: rest).Pairwise (fun x y => x.1 ≤ y.1) := by
      have := pairwise_sortLe leR_trans leR_total (rs.filter (fun r => decide (r.1 < r.2)))
      rw [hsl] at this
      exact this.imp (fun hxy => leR_imp_start hxy)
    refine canon_mergeAdjAux ?_ hpw
    intro x hx
    have : x ∈ sortLe leR (rs.filter (fun r => decide (r.1 < r.2))) := by
      rw [hsl]; exact hx
    have hmem := (sortLe_perm leR _).mem_iff.1 this
    have := (List.mem_filter.1 hmem).2
    simpa using this

/-! ### The interval reconciliation step of read_memory_fast (lines 82-103)

For one module the source builds an IntervalDict d, assigns the label
"fill" to the whole module range, then walks the sorted live-range list:
a live range that intersects the module overwrites its part of the dict
with the label "mem", and the walk breaks once a live range starts past
the module end.  d.find("fill") is then the part of the module range not
overwritten, i.e. the module range minus the union of the live ranges
assigned so far.  Assigning d[mem] = "mem" for a range that does not
intersect the module would not change d.find("fill"), and the source
skips such ranges; the loop below mirrors that test and the break. -/

/-- Subtract one cut range from one piece, keeping the at most two
remaining parts (possibly empty; empty parts cover no address). -/
def rangeSubOne (p c : Range) : List Range :=
  [(p.1, min p.2 c.1), (max p.1 c.2, p.2)]

theorem covers_rangeSubOne {p c : Range} {a : Nat} :
    covers (rangeSubOne p c) a = (inR a p && !inR a c) := by
  apply bool_eq_of_iff
  simp only [rangeSubOne, covers, List.any_cons, List.any_nil, Bool.or_false,
    Bool.or_eq_true, Bool.and_eq_true, Bool.not_eq_true', inR,
    decide_eq_true_eq, Bool.and_eq_false_iff, decide_eq_false_iff_not]
  omega

theorem covers_singleton {r : Range} {a : Nat} : covers [r] a = inR a r := by
  simp [covers]

/-- One step of the inner loop: d[mem] = "mem" for a live range that
intersects the module (lines 90-92), restricted to its effect on the
part of the dict still labeled "fill". -/
def applyMem (pieces : List Range) (c m : Range) : List Range :=
  if rangesOverlap c m then pieces.flatMap (fun p => rangeSubOne p c) else pieces

theorem covers_applyMem {pieces : List Range} {c m : Range}
    (hsub : ∀ a, covers pieces a = true → inR a m = true) (a : Nat) :
    covers (applyMem pieces c m) a = (covers pieces a && !inR a c) := by
  rw [applyMem]
  by_cases hov : rangesOverlap c m = true
  · rw [if_pos hov]
    apply bool_eq_of_iff
    constructor
    · intro h
      obtain ⟨p, hp, hpa⟩ := covers_flatMap.1 h
      rw [covers_rangeSubOne, Bool.and_eq_true] at hpa
      have : covers pieces a = true := by
        rw [covers_iff]
        exact ⟨p, hp, inR_iff.1 hpa.1⟩
      rw [Bool.and_eq_true]
      exact ⟨this, hpa.2⟩
    · intro h
      rw [Bool.and_eq_true] at h
      obtain ⟨p, hp, hpa⟩ := covers_iff.1 h.1
      refine covers_flatMap.2 ⟨p, hp, ?_⟩
      rw [covers_rangeSubOne, Bool.and_eq_true]
      exact ⟨inR_iff.2 hpa, h.2⟩
  · rw [if_neg hov]
    rcases hp : covers pieces a with _ | _
    · simp [hp]
    · have hm := hsub a hp
      have hnc : inR a c = false := by
        rcases hic : inR a c with _ | _
        · rfl
        · exact absurd (rangesOverlap_iff.2 ⟨a, hic, hm⟩) hov
      simp [hp, hnc]

theorem covers_applyMem_sub {pieces : List Range} {c m : Range}
    (hsub : ∀ a, covers pieces a = true → inR a m = true) :
    ∀ a, covers (applyMem pieces c m) a = true → inR a m = true := by
  intro a h
  rw [covers_applyMem hsub a, Bool.and_eq_true] at h
  exact hsub a h.1

/-- The inner loop of read_memory_fast over one module (lines 84-96):
pieces is the part of the IntervalDict still labeled "fill", mems is the
remainder of the sorted live-range list; the loop stops (break, line 94)
once a live range starts past the module end. -/
def moduleFillLoop (m : Range) : List Range → List Range → List Range
  | pieces, [] => pieces
  | pieces, c :: rest =>
    if m.2 < c.1 then applyMem pieces c m
    else moduleFillLoop m (applyMem pieces c m) rest

theorem bool_and_not_or (p q r : Bool) : ((p && !q) && !r) = (p && !(q || r)) := by
  cases p <;> cases q <;> cases r <;> rfl

theorem covers_moduleFillLoop {m : Range} :
    ∀ (mems : List Range), mems.Pairwise (fun x y => x.1 ≤ y.1) →
    ∀ (pieces : List Range), (∀ a, covers pieces a = true → inR a m = true) →
    ∀ a, covers (moduleFillLoop m pieces mems) a = (covers pieces a && !covers mems a) := by
  intro mems
  induction mems with
  | nil =>
    intro _ pieces _ a
    simp [moduleFillLoop, covers]
  | cons c rest ih =>
    intro hpw pieces hsub a
    rcases List.pairwise_cons.1 hpw with ⟨hc, hrest⟩
    simp only [moduleFillLoop]
    by_cases hbr : m.2 < c.1
    · rw [if_pos hbr, covers_applyMem hsub a, covers_cons]
      rcases hp : covers pieces a with _ | _
      · simp
      · have hm := inR_iff.1 (hsub a hp)
        have hnr : covers rest a = false := by
          rcases hcr : covers rest a with _ | _
          · rfl
          · obtain ⟨r, hr, hra⟩ := covers_iff.1 hcr
            have := hc r hr
            omega
        simp [hnr]
    · rw [if_neg hbr, ih hrest (applyMem pieces c m) (covers_applyMem_sub hsub) a,
        covers_applyMem hsub a, covers_cons, bool_and_not_or]

/-- d.find("fill") for one module after the whole inner loop: the module
range minus every live range (lines 83-96). -/
def moduleFill (m : Range) (mems : List Range) : List Range :=
  moduleFillLoop m [m] mems

theorem covers_moduleFill {m : Range} {mems : List Range}
    (hpw : mems.Pairwise (fun x y => x.1 ≤ y.1)) (a : Nat) :
    covers (moduleFill m mems) a = (inR a m && !covers mems a) := by
  rw [moduleFill,
    covers_moduleFillLoop mems hpw [m] (fun a2 h2 => by rwa [covers_singleton] at h2) a,
    covers_singleton]

/-- The address range claimed by a module record (mod_start, size):
I.closedopen(mod_start, mod_start + size), line 85. -/
def moduleRange (mo : Module) : Range := (mo.2.1, mo.2.1 + mo.2.2)

/-- The union over the sorted module list of the per-module "fill" parts
(filling |= d.find("fill"), lines 82-96), as a list of pieces whose union
of addresses is the value of the variable filling. -/
def fillingPieces (module_list : List Module) (mems : List Range) : List Range :=
  (sortLe leMod module_list).flatMap (fun mo => moduleFill (moduleRange mo) mems)

/-- list(filling) at line 100: the canonical atom list of the union. -/
def fillingAtoms (module_list : List Module) (mems : List Range) : List Range :=
  normalize (fillingPieces module_list mems)

theorem covers_fillingPieces {module_list : List Module} {mems : List Range}
    (hpw : mems.Pairwise (fun x y => x.1 ≤ y.1)) (a : Nat) :
    covers (fillingPieces module_list mems) a
      = (module_list.any (fun mo => inR a (moduleRange mo)) && !covers mems a) := by
  apply bool_eq_of_iff
  rw [Bool.and_eq_true, fillingPieces]
  constructor
  · intro h
    obtain ⟨mo, hmo, hmoa⟩ := covers_flatMap.1 h
    rw [covers_moduleFill hpw a, Bool.and_eq_true] at hmoa
    exact ⟨List.any_eq_true.2 ⟨mo, mem_sortLe.1 hmo, hmoa.1⟩, hmoa.2⟩
  · rintro ⟨h1, h2⟩
    obtain ⟨mo, hmo, hmoa⟩ := List.any_eq_true.1 h1
    refine covers_flatMap.2 ⟨mo, mem_sortLe.2 hmo, ?_⟩
    rw [covers_moduleFill hpw a, Bool.and_eq_true]
    exact ⟨hmoa, h2⟩

theorem covers_fillingAtoms {module_list : List Module} {mems : List Range}
    (hpw : mems.Pairwise (fun x y => x.1 ≤ y.1)) (a : Nat) :
    covers (fillingAtoms module_list mems) a
      = (module_list.any (fun mo => inR a (moduleRange mo)) && !covers mems a) := by
  rw [fillingAtoms, covers_normalize, covers_fillingPieces hpw a]

theorem canon_fillingAtoms (module_list : List Module) (mems : List Range) :
    Canon (fillingAtoms module_list mems) :=
  canon_normalize _

/-! ### The operation list of read_memory_fast (lines 98-108) -/

/-- The ordered operation sequence: one (lower, upper, "pad") tuple per
atom of filling (lines 100-101), one (start, end, "mem") tuple per entry
of the sorted live-range list (lines 102-103), the whole list sorted as
Python tuples (line 108).  runs is the raw (run.start, run.end) list of
line 79, sorted there before use. -/
def operations (module_list : List Module) (runs : List Range) : List Op :=
  sortLe leOp
    ((fillingAtoms module_list (sortLe leR runs)).map (fun x => (x.1, x.2, "pad"))
      ++ (sortLe leR runs).map (fun r => (r.1, r.2, "mem")))

theorem any_eq_of_perm {α : Type} {l1 l2 : List α} (h : l1.Perm l2) (f : α → Bool) :
    l1.any f = l2.any f := by
  apply bool_eq_of_iff
  simp only [List.any_eq_true]
  constructor
  · rintro ⟨x, hx, hfx⟩
    exact ⟨x, h.mem_iff.1 hx, hfx⟩
  · rintro ⟨x, hx, hfx⟩
    exact ⟨x, h.mem_iff.2 hx, hfx⟩

theorem pairwise_runs_start {runs : List Range} :
    (sortLe leR runs).Pairwise (fun x y => x.1 ≤ y.1) :=
  (pairwise_sortLe leR_trans leR_total runs).imp (fun h => leR_imp_start h)

/-- Membership characterization of the operation list: an operation is a
"pad" tuple over an atom of filling or a "mem" tuple over a sorted live
range. -/
theorem mem_operations {module_list : List Module} {runs : List Range} {s e : Nat}
    {k : String} :
    (s, e, k) ∈ operations module_list runs ↔
      ((s, e) ∈ fillingAtoms module_list (sortLe leR runs) ∧ k = "pad")
      ∨ ((s, e) ∈ sortLe leR runs ∧ k = "mem") := by
  rw [operations, mem_sortLe, List.mem_append]
  constructor
  · rintro (h | h)
    · obtain ⟨x, hx, hxe⟩ := List.mem_map.1 h
      simp only [Prod.mk.injEq] at hxe
      obtain ⟨h1, h2, h3⟩ := hxe
      subst h1; subst h2; subst h3
      exact Or.inl ⟨by simpa using hx, rfl⟩
    · obtain ⟨x, hx, hxe⟩ := List.mem_map.1 h
      simp only [Prod.mk.injEq] at hxe
      obtain ⟨h1, h2, h3⟩ := hxe
      subst h1; subst h2; subst h3
      exact Or.inr ⟨by simpa using hx, rfl⟩
  · rintro (⟨h, rfl⟩ | ⟨h, rfl⟩)
    · exact Or.inl (List.mem_map.2 ⟨(s, e), h, rfl⟩)
    · exact Or.inr (List.mem_map.2 ⟨(s, e), h, rfl⟩)

theorem rangesOverlap_false_of_sep {x y : Range} (h : x.2 ≤ y.1) :
    rangesOverlap x y = false := by
  simp only [rangesOverlap, decide_eq_false_iff_not]
  omega

theorem bool_and_not_or_or (p q : Bool) : ((p && !q) || q) = (p || q) := by
  cases p <;> cases q <;> rfl

theorem any_map_general {α β : Type} (l : List α) (f : α → β) (p : β → Bool) :
    (l.map f).any p = l.any (fun x => p (f x)) := by
  induction l with
  | nil => rfl
  | cons x t ih => simp only [List.map_cons, List.any_cons, ih]

/-- Every address under any operation of the reconciled sequence, as a
Bool predicate. -/
def opsCover (ops : List Op) (a : Nat) : Bool :=
  ops.any (fun o => inR a (o.1, o.2.1))

theorem opsCover_operations (module_list : List Module) (runs : List Range) (a : Nat) :
    opsCover (operations module_list runs) a
      = (module_list.any (fun mo => inR a (moduleRange mo)) || covers runs a) := by
  rw [opsCover, operations,
    any_eq_of_perm (sortLe_perm leOp _) (fun o => inR a (o.1, o.2.1)),
    List.any_append, any_map_general, any_map_general]
  have hpads : ((fillingAtoms module_list (sortLe leR runs)).any
      (fun x : Range => inR a (((x.1, x.2, "pad") : Op).1, ((x.1, x.2, "pad") : Op).2.1)))
      = covers (fillingAtoms module_list (sortLe leR runs)) a := by
    rfl
  have hmems : ((sortLe leR runs).any
      (fun r : Range => inR a (((r.1, r.2, "mem") : Op).1, ((r.1, r.2, "mem") : Op).2.1)))
      = covers (sortLe leR runs) a := by
    rfl
  rw [hpads, hmems, covers_fillingAtoms pairwise_runs_start a,
    covers_eq_of_perm (sortLe_perm leR runs) a, bool_and_not_or_or]

/-- CLAIM C1 (amended): for pairwise non-overlapping live ranges the
operation sequence of read_memory_fast tiles exactly the union of the
module ranges and the live ranges: the operations are pairwise
non-overlapping, the addresses they cover are exactly the union of module
and live addresses (so there is no gap inside that union), and the
sequence is sorted by start address. -/
theorem c1_operations_tile (module_list : List Module) (runs : List Range)
    (hdisj : runs.Pairwise (fun r s => rangesOverlap r s = false)) :
    (operations module_list runs).Pairwise
        (fun x y => rangesOverlap (x.1, x.2.1) (y.1, y.2.1) = false)
    ∧ (∀ a, opsCover (operations module_list runs) a
        = (module_list.any (fun mo => inR a (moduleRange mo)) || covers runs a))
    ∧ (operations module_list runs).Pairwise (fun x y => x.1 ≤ y.1) := by
  refine ⟨?_, fun a => opsCover_operations module_list runs a, ?_⟩
  · have hsymm : ∀ {x y : Op}, rangesOverlap (x.1, x.2.1) (y.1, y.2.1) = false →
        rangesOverlap (y.1, y.2.1) (x.1, x.2.1) = false := by
      intro x y h
      rw [rangesOverlap_comm] at h
      exact h
    rw [operations,
      (sortLe_perm leOp _).pairwise_iff (fun h => hsymm h),
      List.pairwise_append]
    refine ⟨?_, ?_, ?_⟩
    · rw [List.pairwise_map]
      have hcanon := canon_pairwise (canon_fillingAtoms module_list (sortLe leR runs))
      exact hcanon.imp (fun h => rangesOverlap_false_of_sep (by simpa using Nat.le_of_lt h))
    · rw [List.pairwise_map]
      have hmemspw : (sortLe leR runs).Pairwise (fun r s => rangesOverlap r s = false) := by
        rw [(sortLe_perm leR runs).pairwise_iff
          (fun h => by rw [rangesOverlap_comm] at h; exact h)]
        exact hdisj
      exact hmemspw.imp (fun h => by simpa using h)
    · rintro x hx y hy
      obtain ⟨p, hp, rfl⟩ := List.mem_map.1 hx
      obtain ⟨r, hr, rfl⟩ := List.mem_map.1 hy
      simp only []
      rcases hov : rangesOverlap (p.1, p.2) (r.1, r.2) with _ | _
      · rfl
      · obtain ⟨a, hap, har⟩ := rangesOverlap_iff.1 (by simpa using hov)
        have hcov : covers (fillingAtoms module_list (sortLe leR runs)) a = true := by
          rw [covers_iff]
          exact ⟨p, hp, by simpa [inR_iff] using hap⟩
        rw [covers_fillingAtoms pairwise_runs_start a, Bool.and_eq_true] at hcov
        have hrc : covers (sortLe leR runs) a = true := by
          rw [covers_iff]
          exact ⟨r, hr, by simpa [inR_iff] using har⟩
        rw [hrc] at hcov
        simpa using hcov.2
  · exact (pairwise_sortLe leOp_trans leOp_total _).imp (fun h => leOp_imp_start h)

/-- CLAIM C1 (witness): the amended tiling theorem applied to a concrete
module list and concrete pairwise-disjoint live ranges. -/
theorem c1_operations_tile_witness :
    (operations [("a.dll", 2, 10)] [(4, 6), (8, 9)]).Pairwise
        (fun x y => rangesOverlap (x.1, x.2.1) (y.1, y.2.1) = false)
    ∧ (∀ a, opsCover (operations [("a.dll", 2, 10)] [(4, 6), (8, 9)]) a
        = ([("a.dll", 2, 10)].any (fun mo => inR a (moduleRange mo))
            || covers [(4, 6), (8, 9)] a))
    ∧ (operations [("a.dll", 2, 10)] [(4, 6), (8, 9)]).Pairwise
        (fun x y => x.1 ≤ y.1) :=
  c1_operations_tile [("a.dll", 2, 10)] [(4, 6), (8, 9)] (by decide)

/-- CLAIM C1 (counterexample to the unrestricted statement): with two
overlapping live ranges the produced operations overlap, so the claim as
stated over every finite set of live ranges fails. -/
theorem c1_overlap_counterexample :
    ¬ (operations [] [(0, 10), (5, 15)]).Pairwise
        (fun x y => rangesOverlap (x.1, x.2.1) (y.1, y.2.1) = false) := by
  intro h
  have hops : operations [] [(0, 10), (5, 15)] = [(0, 10, "mem"), (5, 15, "mem")] := by
    decide
  rw [hops] at h
  have := (List.pairwise_cons.1 h).1 (5, 15, "mem") (by simp)
  simp [rangesOverlap] at this

/-- In a canonical atom list, a nonempty connected address range that is
fully covered lies inside exactly one atom. -/
theorem canon_subrange {atoms : List Range} (hc : Canon atoms) {s e : Nat} (hse : s < e)
    (hcov : ∀ a, s ≤ a → a < e → covers atoms a = true) :
    ∃ p ∈ atoms, p.1 ≤ s ∧ e ≤ p.2 ∧
      ∀ q ∈ atoms, rangesOverlap q (s, e) = true → q = p := by
  have hsep : atoms.Pairwise (fun x y => x.2 < y.1 ∨ y.2 < x.1) :=
    (canon_pairwise hc).imp (fun h => Or.inl h)
  have hsymm : Symmetric (fun x y : Range => x.2 < y.1 ∨ y.2 < x.1) := by
    intro x y h
    exact h.symm
  obtain ⟨p, hp, hps⟩ := covers_iff.1 (hcov s (Nat.le_refl s) hse)
  have hpe : e ≤ p.2 := by
    by_contra hlt
    push_neg at hlt
    obtain ⟨q, hq, hqs⟩ := covers_iff.1 (hcov p.2 (by omega) (by omega))
    have hne : q ≠ p := by
      intro h
      subst h
      omega
    have := hsep.forall hsymm hq hp hne
    omega
  refine ⟨p, hp, hps.1, hpe, ?_⟩
  intro q hq hov
  obtain ⟨a, haq, hain⟩ := rangesOverlap_iff.1 hov
  rw [inR_iff] at haq hain
  by_contra hne
  have := hsep.forall hsymm hq hp hne
  have hap : p.1 ≤ a ∧ a < p.2 := by
    constructor <;> omega
  omega

/-- Membership in an atom list implies the cover predicate holds there. -/
theorem covers_of_mem {rs : List Range} {r : Range} {a : Nat}
    (hr : r ∈ rs) (ha : inR a r = true) : covers rs a = true :=
  covers_iff.2 ⟨r, hr, inR_iff.1 ha⟩

/-- CLAIM C2: the classification of operations per module.  (a) Over any
address of a module range, some "pad" operation covers it exactly when no
live range does (the "pad" part over a module is the interval subtraction
of the live ranges from the module range).  (b) Every live range is
emitted verbatim as a "mem" operation.  (c) A module range contained in a
live range is touched by "mem" operations only.  (d) A nonempty module
range meeting no live range lies inside a single "pad" operation, and
that operation is the only one meeting the module range. -/
theorem c2_fill_classification (module_list : List Module) (runs : List Range) :
    (∀ mo ∈ module_list, ∀ a, inR a (moduleRange mo) = true →
      ((operations module_list runs).any
          (fun o => decide (o.2.2 = "pad") && inR a (o.1, o.2.1))
        = !covers runs a))
    ∧ (∀ r ∈ runs, (r.1, r.2, "mem") ∈ operations module_list runs)
    ∧ (∀ mo ∈ module_list,
        (∃ r ∈ runs, r.1 ≤ (moduleRange mo).1 ∧ (moduleRange mo).2 ≤ r.2) →
        ∀ o ∈ operations module_list runs,
          rangesOverlap (o.1, o.2.1) (moduleRange mo) = true → o.2.2 = "mem")
    ∧ (∀ mo ∈ module_list, 0 < mo.2.2 →
        (∀ r ∈ runs, rangesOverlap (moduleRange mo) r = false) →
        ∃ o ∈ operations module_list runs, o.2.2 = "pad" ∧
          o.1 ≤ (moduleRange mo).1 ∧ (moduleRange mo).2 ≤ o.2.1 ∧
          ∀ o2 ∈ operations module_list runs,
            rangesOverlap (o2.1, o2.2.1) (moduleRange mo) = true → o2 = o) := by
  have hpadAny : ∀ a,
      ((operations module_list runs).any
          (fun o => decide (o.2.2 = "pad") && inR a (o.1, o.2.1)))
        = covers (fillingAtoms module_list (sortLe leR runs)) a := by
    intro a
    apply bool_eq_of_iff
    rw [List.any_eq_true, covers_iff]
    constructor
    · rintro ⟨⟨s2, e2, k2⟩, ho, hcond⟩
      rw [Bool.and_eq_true, decide_eq_true_eq] at hcond
      rcases mem_operations.1 ho with ⟨hat, _⟩ | ⟨_, hk⟩
      · exact ⟨(s2, e2), hat, inR_iff.1 hcond.2⟩
      · rw [hk] at hcond
        have hmp : ("mem" : String) = "pad" := hcond.1
        exact absurd hmp (by decide)
    · rintro ⟨p, hp, hpa⟩
      refine ⟨(p.1, p.2, "pad"), mem_operations.2 (Or.inl ⟨by simpa using hp, rfl⟩), ?_⟩
      rw [Bool.and_eq_true, decide_eq_true_eq]
      exact ⟨rfl, inR_iff.2 hpa⟩
  refine ⟨?_, ?_, ?_, ?_⟩
  · intro mo hmo a ha
    rw [hpadAny a, covers_fillingAtoms pairwise_runs_start a,
      covers_eq_of_perm (sortLe_perm leR runs) a]
    have : module_list.any (fun x => inR a (moduleRange x)) = true :=
      List.any_eq_true.2 ⟨mo, hmo, ha⟩
    rw [this, Bool.true_and]
  · intro r hr
    exact mem_operations.2 (Or.inr ⟨mem_sortLe.2 hr, rfl⟩)
  · rintro mo hmo ⟨r, hr, hr1, hr2⟩ ⟨s2, e2, k2⟩ ho hov
    rcases mem_operations.1 ho with ⟨hat, hk⟩ | ⟨_, hk⟩
    · exfalso
      obtain ⟨a, hao, ham⟩ := rangesOverlap_iff.1 hov
      have hcov := covers_of_mem hat (by simpa using hao)
      rw [covers_fillingAtoms pairwise_runs_start a, Bool.and_eq_true] at hcov
      have : covers (sortLe leR runs) a = true := by
        rw [covers_eq_of_perm (sortLe_perm leR runs) a, covers_iff]
        rw [inR_iff] at ham
        exact ⟨r, hr, by omega⟩
      rw [this] at hcov
      simpa using hcov.2
    · exact hk
  · intro mo hmo hsz hnone
    have hspan : ∀ a, (moduleRange mo).1 ≤ a → a < (moduleRange mo).2 →
        covers (fillingAtoms module_list (sortLe leR runs)) a = true := by
      intro a h1 h2
      rw [covers_fillingAtoms pairwise_runs_start a]
      have hm : module_list.any (fun x => inR a (moduleRange x)) = true :=
        List.any_eq_true.2 ⟨mo, hmo, inR_iff.2 ⟨h1, h2⟩⟩
      have hnc : covers (sortLe leR runs) a = false := by
        rcases hcv : covers (sortLe leR runs) a with _ | _
        · rfl
        · obtain ⟨r, hr, hra⟩ := covers_iff.1 hcv
          have hfalse := hnone r (mem_sortLe.1 hr)
          have htrue : rangesOverlap (moduleRange mo) r = true :=
            rangesOverlap_iff.2 ⟨a, inR_iff.2 ⟨h1, h2⟩, inR_iff.2 hra⟩
          rw [htrue] at hfalse
          exact absurd hfalse (by simp)
      rw [hm, hnc]
      rfl
    have hlt : (moduleRange mo).1 < (moduleRange mo).2 := by
      simp only [moduleRange]
      omega
    obtain ⟨p, hp, hp1, hp2, huniq⟩ :=
      canon_subrange (canon_fillingAtoms module_list (sortLe leR runs)) hlt hspan
    refine ⟨(p.1, p.2, "pad"),
      mem_operations.2 (Or.inl ⟨by simpa using hp, rfl⟩), rfl, hp1, hp2, ?_⟩
    rintro ⟨s2, e2, k2⟩ ho2 hov2
    rcases mem_operations.1 ho2 with ⟨hat, hk⟩ | ⟨hmem, hk⟩
    · have heq := huniq (s2, e2) hat hov2
      rw [Prod.ext_iff] at heq
      simp only [Prod.mk.injEq]
      exact ⟨heq.1, heq.2, hk⟩
    · exfalso
      obtain ⟨a, hao, ham⟩ := rangesOverlap_iff.1 hov2
      have hrr := hnone (s2, e2) (mem_sortLe.1 hmem)
      rw [rangesOverlap_comm] at hrr
      have : rangesOverlap (s2, e2) (moduleRange mo) = true :=
        rangesOverlap_iff.2 ⟨a, hao, ham⟩
      rw [this] at hrr
      exact absurd hrr (by simp)

/-- CLAIM C2 (witness): the classification theorem applied to a concrete
module list and live-range list. -/
theorem c2_fill_classification_witness :
    (∀ mo ∈ [("a.dll", 0, 4), ("b.dll", 20, 4)], ∀ a, inR a (moduleRange mo) = true →
      ((operations [("a.dll", 0, 4), ("b.dll", 20, 4)] [(2, 9)]).any
          (fun o => decide (o.2.2 = "pad") && inR a (o.1, o.2.1))
        = !covers [(2, 9)] a))
    ∧ (∀ r ∈ [(2, 9)], (r.1, r.2, "mem") ∈
        operations [("a.dll", 0, 4), ("b.dll", 20, 4)] [(2, 9)])
    ∧ (∀ mo ∈ [("a.dll", 0, 4), ("b.dll", 20, 4)],
        (∃ r ∈ [(2, 9)], r.1 ≤ (moduleRange mo).1 ∧ (moduleRange mo).2 ≤ r.2) →
        ∀ o ∈ operations [("a.dll", 0, 4), ("b.dll", 20, 4)] [(2, 9)],
          rangesOverlap (o.1, o.2.1) (moduleRange mo) = true → o.2.2 = "mem")
    ∧ (∀ mo ∈ [("a.dll", 0, 4), ("b.dll", 20, 4)], 0 < mo.2.2 →
        (∀ r ∈ [(2, 9)], rangesOverlap (moduleRange mo) r = false) →
        ∃ o ∈ operations [("a.dll", 0, 4), ("b.dll", 20, 4)] [(2, 9)], o.2.2 = "pad" ∧
          o.1 ≤ (moduleRange mo).1 ∧ (moduleRange mo).2 ≤ o.2.1 ∧
          ∀ o2 ∈ operations [("a.dll", 0, 4), ("b.dll", 20, 4)] [(2, 9)],
            rangesOverlap (o2.1, o2.2.1) (moduleRange mo) = true → o2 = o) :=
  c2_fill_classification [("a.dll", 0, 4), ("b.dll", 20, 4)] [(2, 9)]

/-- One record of memoryinfo_list (lines 111-118).  The Python dict key
"Type" is MemType here, Type being reserved in Lean. -/
structure MemInfo where
  BaseAddress : Nat
  AllocationBase : Nat
  AllocationProtect : Nat
  RegionSize : Nat
  Protect : Nat
  State : Nat
  MemType : Nat
deriving DecidableEq

/-- The rekall collaborator addr_space.read(start, size): per the source
comment at lines 122-123, rekall substitutes a zero-filled buffer when
the underlying read fails, so the injected fallible raw read degrades to
zeros of the requested size. -/
def addrSpaceRead (rawRead : Nat → Nat → Option (List Nat)) (start size : Nat) : List Nat :=
  match rawRead start size with
  | some data => data
  | none => List.replicate size 0

/-- read_memory_fast (lines 71-129), with the rekall session abstracted
into the raw read capability and the module and live-range lists taken as
inputs.  Returns (memoryinfo_list, memory64_list).  The kind test at line
121 compares against "fill" although operation tuples carry "pad" or
"mem"; both branches perform the same read, as in the source. -/
def read_memory_fast (rawRead : Nat → Nat → Option (List Nat))
    (module_list : List Module) (runs : List Range) :
    List MemInfo × List (Nat × Nat × List Nat) :=
  ((operations module_list runs).map (fun o =>
      ⟨o.1, 0, 0, o.2.1 - o.1, 0, 0, 0⟩),
   (operations module_list runs).map (fun o =>
      (o.1, o.2.1 - o.1,
        if o.2.2 = "fill" then addrSpaceRead rawRead o.1 (o.2.1 - o.1)
        else addrSpaceRead rawRead o.1 (o.2.1 - o.1))))

/-- CLAIM C8: the sum of the content block sizes of memory64_list equals
the sum of the RegionSize fields of memoryinfo_list, for every input:
both lists are built pairwise from the same operation sequence with the
same size = end - start (lines 106-127). -/
theorem c8_size_sums (rawRead : Nat → Nat → Option (List Nat))
    (module_list : List Module) (runs : List Range) :
    (((read_memory_fast rawRead module_list runs).2).map (fun b => b.2.1)).sum
      = (((read_memory_fast rawRead module_list runs).1).map
          (fun mi => mi.RegionSize)).sum := by
  rw [read_memory_fast]
  simp only [List.map_map]
  induction operations module_list runs with
  | nil => rfl
  | cons o t ih => simp only [List.map_cons, List.sum_cons, Function.comp_apply, ih]

/-- CLAIM C10: every memoryinfo_list record of read_memory_fast carries
hard-coded zero metadata: AllocationBase, AllocationProtect, Protect,
State and the dict key "Type" are all 0 (lines 111-118). -/
theorem c10_zero_metadata (rawRead : Nat → Nat → Option (List Nat))
    (module_list : List Module) (runs : List Range) :
    ∀ mi ∈ (read_memory_fast rawRead module_list runs).1,
      mi.AllocationBase = 0 ∧ mi.AllocationProtect = 0 ∧ mi.Protect = 0 ∧
      mi.State = 0 ∧ mi.MemType = 0 := by
  intro mi hmi
  rw [read_memory_fast] at hmi
  obtain ⟨o, _, rfl⟩ := List.mem_map.1 hmi
  exact ⟨rfl, rfl, rfl, rfl, rfl⟩

/-- CLAIM C10 (witness): the zero-metadata invariant evaluated on a
concrete run of read_memory_fast. -/
theorem c10_zero_metadata_witness :
    (⟨0, 0, 0, 3, 0, 0, 0⟩ : MemInfo) ∈ (read_memory_fast (fun _ _ => none) [] [(0, 3)]).1
    ∧ ((⟨0, 0, 0, 3, 0, 0, 0⟩ : MemInfo).AllocationBase = 0
        ∧ (⟨0, 0, 0, 3, 0, 0, 0⟩ : MemInfo).AllocationProtect = 0
        ∧ (⟨0, 0, 0, 3, 0, 0, 0⟩ : MemInfo).Protect = 0
        ∧ (⟨0, 0, 0, 3, 0, 0, 0⟩ : MemInfo).State = 0
        ∧ (⟨0, 0, 0, 3, 0, 0, 0⟩ : MemInfo).MemType = 0) :=
  ⟨by decide,
   c10_zero_metadata (fun _ _ => none) [] [(0, 3)] ⟨0, 0, 0, 3, 0, 0, 0⟩ (by decide)⟩

/-- CLAIM C4: for every operation of the reconciled sequence, whatever
its kind, a content block over the full range is produced by the same
best-effort read; when the underlying raw read fails the block holds a
zero-filled buffer of the block size, and read_memory_fast is a total
function, so no read failure escapes it. -/
theorem c4_read_and_fill (rawRead : Nat → Nat → Option (List Nat))
    (module_list : List Module) (runs : List Range) :
    (∀ o ∈ operations module_list runs,
      (o.1, o.2.1 - o.1, addrSpaceRead rawRead o.1 (o.2.1 - o.1))
        ∈ (read_memory_fast rawRead module_list runs).2)
    ∧ (∀ b ∈ (read_memory_fast rawRead module_list runs).2,
        (rawRead b.1 b.2.1 = none → b.2.2 = List.replicate b.2.1 0)
        ∧ (∀ d, rawRead b.1 b.2.1 = some d → b.2.2 = d)) := by
  constructor
  · intro o ho
    rw [read_memory_fast]
    refine List.mem_map.2 ⟨o, ho, ?_⟩
    by_cases hf : o.2.2 = "fill" <;> simp [hf]
  · intro b hb
    rw [read_memory_fast] at hb
    obtain ⟨o, ho, rfl⟩ := List.mem_map.1 hb
    constructor
    · intro hn
      by_cases hf : o.2.2 = "fill" <;> simp [hf, addrSpaceRead, hn]
    · intro d hd
      by_cases hf : o.2.2 = "fill" <;> simp [hf, addrSpaceRead, hd]

/-- CLAIM C4 (witness): the best-effort read theorem applied to a
concrete failing raw read. -/
theorem c4_read_and_fill_witness :
    (∀ o ∈ operations [] [(0, 3)],
      (o.1, o.2.1 - o.1, addrSpaceRead (fun _ _ => none) o.1 (o.2.1 - o.1))
        ∈ (read_memory_fast (fun _ _ => none) [] [(0, 3)]).2)
    ∧ (∀ b ∈ (read_memory_fast (fun _ _ => none) [] [(0, 3)]).2,
        ((fun _ _ => (none : Option (List Nat))) b.1 b.2.1 = none →
          b.2.2 = List.replicate b.2.1 0)
        ∧ (∀ d, (fun _ _ => (none : Option (List Nat))) b.1 b.2.1 = some d →
            b.2.2 = d)) :=
  c4_read_and_fill (fun _ _ => none) [] [(0, 3)]

/-! ### ensureFileExist (lines 147-156)

The loop checks os.path.exists(path) up to 120 times, sleeping one second
after each failed check (for x in range(120) with time.sleep(1)); the
for-else raises once the whole range is exhausted without a break.  The
time-varying filesystem is abstracted as a predicate giving the result of
the check at each loop index, and the sleeps are recorded as a list of
slept durations. -/

/-- One pass of the polling loop over the remaining loop indices:
returns the recorded sleep durations and either a normal return (the
break at line 153) or the raised message of line 156. -/
def ensureFileExistLoop (fileExistsAt : Nat → Bool) (path : String) :
    List Nat → List Nat × Except String Unit
  | [] => ([], Except.error ("File does not exist: " ++ path))
  | x :: xs =>
    if fileExistsAt x then ([], Except.ok ())
    else
      let r := ensureFileExistLoop fileExistsAt path xs
      (1 :: r.1, r.2)

/-- ensureFileExist (lines 147-156): poll the 120 loop indices. -/
def ensureFileExist (fileExistsAt : Nat → Bool) (path : String) :
    List Nat × Except String Unit :=
  ensureFileExistLoop fileExistsAt path (List.range 120)

theorem ensureFileExistLoop_spec (fileExistsAt : Nat → Bool) (path : String) :
    ∀ l : List Nat,
      ((ensureFileExistLoop fileExistsAt path l).2 = Except.ok ()
        ↔ ∃ x ∈ l, fileExistsAt x = true)
      ∧ ((ensureFileExistLoop fileExistsAt path l).2
            = Except.error ("File does not exist: " ++ path)
          ↔ ∀ x ∈ l, fileExistsAt x = false)
      ∧ (∀ d ∈ (ensureFileExistLoop fileExistsAt path l).1, d = 1)
      ∧ (ensureFileExistLoop fileExistsAt path l).1.length ≤ l.length := by
  intro l
  induction l with
  | nil =>
    refine ⟨by simp [ensureFileExistLoop], by simp [ensureFileExistLoop], ?_, ?_⟩
    · intro d hd
      simp [ensureFileExistLoop] at hd
    · simp [ensureFileExistLoop]
  | cons x xs ih =>
    by_cases hx : fileExistsAt x = true
    · refine ⟨by simp [ensureFileExistLoop, hx], ?_, ?_, ?_⟩
      · simp only [ensureFileExistLoop, if_pos hx]
        constructor
        · intro h
          exact absurd h (by simp)
        · intro h
          exact absurd (h x (List.mem_cons_self x xs)) (by simp [hx])
      · intro d hd
        simp [ensureFileExistLoop, hx] at hd
      · simp [ensureFileExistLoop, hx]
    · rw [Bool.not_eq_true] at hx
      refine ⟨?_, ?_, ?_, ?_⟩
      · simp only [ensureFileExistLoop, hx, Bool.false_eq_true, if_false]
        rw [ih.1]
        constructor
        · rintro ⟨y, hy, hfy⟩
          exact ⟨y, List.mem_cons_of_mem x hy, hfy⟩
        · rintro ⟨y, hy, hfy⟩
          rcases List.mem_cons.1 hy with rfl | hy2
          · rw [hfy] at hx
            exact absurd hx (by simp)
          · exact ⟨y, hy2, hfy⟩
      · simp only [ensureFileExistLoop, hx, Bool.false_eq_true, if_false]
        rw [ih.2.1]
        constructor
        · intro h y hy
          rcases List.mem_cons.1 hy with rfl | hy2
          · exact hx
          · exact h y hy2
        · intro h y hy
          exact h y (List.mem_cons_of_mem x hy)
      · intro d hd
        simp only [ensureFileExistLoop, hx, Bool.false_eq_true, if_false] at hd
        rcases List.mem_cons.1 hd with rfl | hd2
        · rfl
        · exact ih.2.2.1 d hd2
      · simp only [ensureFileExistLoop, hx, Bool.false_eq_true, if_false,
          List.length_cons]
        exact Nat.succ_le_succ ih.2.2.2

/-- CLAIM C7: ensureFileExist returns normally exactly when the file
exists at one of the 120 polled checks; otherwise it raises the message
"File does not exist: " followed by the path; every recorded sleep lasts
one second and at most 120 sleeps happen. -/
theorem c7_ensure_file_exist (fileExistsAt : Nat → Bool) (path : String) :
    ((ensureFileExist fileExistsAt path).2 = Except.ok ()
      ↔ ∃ x, x < 120 ∧ fileExistsAt x = true)
    ∧ ((ensureFileExist fileExistsAt path).2
          = Except.error ("File does not exist: " ++ path)
        ↔ ∀ x, x < 120 → fileExistsAt x = false)
    ∧ (∀ d ∈ (ensureFileExist fileExistsAt path).1, d = 1)
    ∧ (ensureFileExist fileExistsAt path).1.length ≤ 120 := by
  have h := ensureFileExistLoop_spec fileExistsAt path (List.range 120)
  refine ⟨?_, ?_, h.2.2.1, by simpa using h.2.2.2⟩
  · rw [ensureFileExist, h.1]
    simp [List.mem_range]
  · rw [ensureFileExist, h.2.1]
    simp [List.mem_range]

/-- CLAIM C7 (witness): the polling contract applied to a concrete
check predicate under which the file appears at the fifth check. -/
theorem c7_ensure_file_exist_witness :
    (((ensureFileExist (fun x => decide (x = 4)) "config.json").2 = Except.ok ()
      ↔ ∃ x, x < 120 ∧ decide (x = 4) = true)
    ∧ (((ensureFileExist (fun x => decide (x = 4)) "config.json").2
          = Except.error ("File does not exist: " ++ "config.json"))
        ↔ ∀ x, x < 120 → decide (x = 4) = false)
    ∧ (∀ d ∈ (ensureFileExist (fun x => decide (x = 4)) "config.json").1, d = 1)
    ∧ (ensureFileExist (fun x => decide (x = 4)) "config.json").1.length ≤ 120) :=
  c7_ensure_file_exist (fun x => decide (x = 4)) "config.json"

/-! ### The Secure World page scanner (_cg, lines 184-197) and
read_secure_world (lines 159-167)

The page-frame metadata accessor
s.profile.get_constant_object("MmPfnDatabase")[pfn] of the rekall
collaborator is abstracted as a function from page-frame numbers to
metadata records, and the physical read
s.default_address_space.base.read as a fallible read capability. -/

/-- The fields of one MmPfnDatabase record used by the scan (line 196). -/
structure PfnMeta where
  ReferenceCount : Nat
  ShareCount : Nat
  PteAddress : Nat

/-- The page size 0x1000 of line 184 (also PAGE_SIZE at line 160). -/
def PAGE_SIZE : Nat := 4096

/-- PAGE_BITS at line 185. -/
def PAGE_BITS : Nat := 12

/-- The three-way classification test of line 196. -/
def securePredicate (p : PfnMeta) : Bool :=
  decide (p.ReferenceCount = 2) && decide (p.ShareCount = 1) && decide (p.PteAddress = 0)

/-- The scan loop of lines 188-197: every page-frame number in
range(image_size // PAGE_SIZE) whose metadata passes the test contributes
the physical address pfn << PAGE_BITS, in loop order. -/
def secure_world_pages (image_size : Nat) (meta : Nat → PfnMeta) : List Nat :=
  ((List.range (image_size / PAGE_SIZE)).filter
      (fun pfn => securePredicate (meta pfn))).map
    (fun pfn => pfn <<< PAGE_BITS)

/-- read_secure_world (lines 159-167): read one full page per collected
address and concatenate the byte strings in order; a raised read error is
not caught anywhere in the function. -/
def read_secure_world (readp : Nat → Nat → Except String (List Nat)) :
    List Nat → Except String (List Nat)
  | [] => Except.ok []
  | addr :: rest =>
    match readp addr PAGE_SIZE with
    | Except.error e => Except.error e
    | Except.ok data =>
      match read_secure_world readp rest with
      | Except.error e => Except.error e
      | Except.ok restData => Except.ok (data ++ restData)

theorem shiftLeft_twelve (n : Nat) : n <<< PAGE_BITS = n * 4096 := by
  rw [PAGE_BITS, Nat.shiftLeft_eq]

theorem read_secure_world_ok (readp : Nat → Nat → Except String (List Nat))
    (pageData : Nat → List Nat) :
    ∀ pages : List Nat,
      (∀ a ∈ pages, readp a PAGE_SIZE = Except.ok (pageData a)) →
      read_secure_world readp pages = Except.ok ((pages.map pageData).flatten) := by
  intro pages
  induction pages with
  | nil => intro _; rfl
  | cons addr rest ih =>
    intro h
    have hhd := h addr (List.mem_cons_self addr rest)
    have htl := ih (fun a ha => h a (List.mem_cons_of_mem addr ha))
    simp only [read_secure_world, hhd, htl, List.map_cons, List.flatten_cons]

theorem read_secure_world_error (readp : Nat → Nat → Except String (List Nat)) :
    ∀ pages : List Nat,
      (∃ a ∈ pages, ∃ e, readp a PAGE_SIZE = Except.error e) →
      ∃ e, read_secure_world readp pages = Except.error e := by
  intro pages
  induction pages with
  | nil =>
    rintro ⟨a, ha, _⟩
    exact absurd ha (List.not_mem_nil a)
  | cons addr rest ih =>
    rintro ⟨a, ha, e, he⟩
    rcases hhd : readp addr PAGE_SIZE with e2 | data
    · exact ⟨e2, by simp only [read_secure_world, hhd]⟩
    · rcases List.mem_cons.1 ha with rfl | ha2
      · rw [he] at hhd
        exact absurd hhd (by simp)
      · obtain ⟨e3, he3⟩ := ih ⟨a, ha2, e, he⟩
        exact ⟨e3, by simp only [read_secure_world, hhd, he3]⟩

/-- CLAIM C3: the scan visits exactly the page-frame numbers below
image_size / 4096; the collected address sequence is pfn * 4096 for
exactly the frames passing the three-way predicate, in increasing order;
when every page read succeeds, the Secure World blob is the in-order
concatenation of one full page read per collected address; an input with
no matching page yields the empty sequence and the empty blob. -/
theorem c3_secure_world_scan (image_size : Nat) (meta : Nat → PfnMeta)
    (readp : Nat → Nat → Except String (List Nat)) (pageData : Nat → List Nat)
    (hread : ∀ a ∈ secure_world_pages image_size meta,
        readp a PAGE_SIZE = Except.ok (pageData a)) :
    (∀ a, a ∈ secure_world_pages image_size meta ↔
      ∃ pfn, pfn < image_size / 4096 ∧ securePredicate (meta pfn) = true ∧ a = pfn * 4096)
    ∧ (secure_world_pages image_size meta).Pairwise (fun x y => x < y)
    ∧ read_secure_world readp (secure_world_pages image_size meta)
        = Except.ok (((secure_world_pages image_size meta).map pageData).flatten)
    ∧ secure_world_pages 0 meta = []
    ∧ read_secure_world readp [] = Except.ok [] := by
  refine ⟨?_, ?_, read_secure_world_ok readp pageData _ hread, rfl, rfl⟩
  · intro a
    simp only [secure_world_pages, List.mem_map, List.mem_filter, List.mem_range,
      shiftLeft_twelve, PAGE_SIZE]
    constructor
    · rintro ⟨pfn, ⟨h1, h2⟩, rfl⟩
      exact ⟨pfn, h1, h2, rfl⟩
    · rintro ⟨pfn, h1, h2, rfl⟩
      exact ⟨pfn, ⟨h1, h2⟩, rfl⟩
  · rw [secure_world_pages, List.pairwise_map]
    refine ((List.pairwise_lt_range _).filter _).imp ?_
    intro x y h
    rw [shiftLeft_twelve, shiftLeft_twelve]
    omega

/-- CLAIM C3 (witness): the scan contract on a three-page image where
only frame 1 passes the predicate. -/
theorem c3_secure_world_scan_witness :
    (∀ a, a ∈ secure_world_pages 12288
        (fun pfn => if pfn = 1 then ⟨2, 1, 0⟩ else ⟨1, 0, 5⟩) ↔
      ∃ pfn, pfn < 12288 / 4096 ∧
        securePredicate ((fun pfn => if pfn = 1 then (⟨2, 1, 0⟩ : PfnMeta)
          else ⟨1, 0, 5⟩) pfn) = true ∧ a = pfn * 4096)
    ∧ (secure_world_pages 12288
        (fun pfn => if pfn = 1 then ⟨2, 1, 0⟩ else ⟨1, 0, 5⟩)).Pairwise
        (fun x y => x < y)
    ∧ read_secure_world (fun a _ => Except.ok [a, a + 1])
        (secure_world_pages 12288 (fun pfn => if pfn = 1 then ⟨2, 1, 0⟩ else ⟨1, 0, 5⟩))
        = Except.ok (((secure_world_pages 12288
            (fun pfn => if pfn = 1 then ⟨2, 1, 0⟩ else ⟨1, 0, 5⟩)).map
              (fun a => [a, a + 1])).flatten)
    ∧ secure_world_pages 0 (fun pfn => if pfn = 1 then ⟨2, 1, 0⟩ else ⟨1, 0, 5⟩) = []
    ∧ read_secure_world (fun a _ => Except.ok [a, a + 1]) [] = Except.ok [] :=
  c3_secure_world_scan 12288 (fun pfn => if pfn = 1 then ⟨2, 1, 0⟩ else ⟨1, 0, 5⟩)
    (fun a _ => Except.ok [a, a + 1]) (fun a => [a, a + 1])
    (fun _ _ => rfl)

/-! ### The orchestrator (_cg lines 170-207, _dump lines 210-312,
dump lines 320-324)

The external collaborators are abstracted into an environment record:
the outcome of os.path.splitext on the supplied image path, whether the
awaited files appear within the polling budget, what the two process
enumerations find, the physical layout and page metadata behind _cg, the
physical read capability, the state of the output directory, and whether
the operator interrupts the run (modeled as a KeyboardInterrupt raised
at the start of _dump and caught at the top level).  The steps after the
Credential Guard branch (imageinfo, read_systeminfo, read_modulelist,
read_memory_fast, minidump.build) are total given their inputs and are
modeled as succeeding. -/

/-- Opening a file for writing inside the directory output
(open(filepath, "wb"), lines 204 and 309) fails with FileNotFoundError
when that directory does not exist. -/
def openWriteInOutput (outputDirExists : Bool) : Except String Unit :=
  if outputDirExists then Except.ok () else Except.error "FileNotFoundError: output/"

/-- The write of the Persist step (lines 305-310): os.mkdir creates the
output directory when it is absent (lines 305-306), then the dump file is
written into it. -/
def persistStep (outputDirExists : Bool) : Except String Unit :=
  if !outputDirExists then openWriteInOutput true
  else openWriteInOutput outputDirExists

/-- The Secure World extraction step _cg (lines 170-207): scan the
physical pages, read them, then write output/...-secure-world.raw.
_cg contains no directory creation (contrast _dump lines 305-306) and no
exception handler, so both a read failure and a missing output directory
propagate. -/
def cg (image_size : Nat) (meta : Nat → PfnMeta)
    (readp : Nat → Nat → Except String (List Nat)) (outputDirExists : Bool) :
    Except String (List Nat) :=
  match read_secure_world readp (secure_world_pages image_size meta) with
  | Except.error e => Except.error e
  | Except.ok secure_world =>
    match openWriteInOutput outputDirExists with
    | Except.error e => Except.error e
    | Except.ok _ => Except.ok secure_world

/-- How a run of _dump can terminate abnormally: sys.exit(code), an
uncaught Python exception, or an operator interrupt. -/
inductive PyExit where
  | sysExit (code : Nat)
  | exc (msg : String)
  | keyboardInterrupt

/-- The environment of one orchestrator run.  Field order: vmem argument,
extension computed by os.path.splitext, config.json appears within the
polling budget, image path named by config.json, that image file appears
within the polling budget, pslist finds lsass.exe, pslist finds
lsaiso.exe, physical image size for _cg, page metadata accessor,
physical read capability, the output directory exists, the operator
interrupts the run. -/
structure Env where
  vmem : Option String
  vmemExt : String
  configAppears : Bool
  configImage : String
  imageAppears : Bool
  lsassFound : Bool
  lsaisoFound : Bool
  cgImageSize : Nat
  cgMeta : Nat → PfnMeta
  physRead : Nat → Nat → Except String (List Nat)
  outputDirExists : Bool
  interrupt : Bool

/-- The part of _dump after the rekall session is bound (lines 245-312):
exit with status 1 when lsass.exe is not found (lines 247-256); when
lsaiso.exe is found and a local image was supplied, run _cg (lines
266-275), whose exceptions are not caught; the remaining collection,
build and persist steps succeed (the Persist write is mkdir-guarded,
lines 305-310). -/
def dumpWithSession (env : Env) : Except PyExit Unit :=
  if env.lsassFound then
    if env.lsaisoFound && env.vmem.isSome then
      match cg env.cgImageSize env.cgMeta env.physRead env.outputDirExists with
      | Except.error e => Except.error (PyExit.exc e)
      | Except.ok _ => Except.ok ()
    else Except.ok ()
  else Except.error (PyExit.sysExit 1)

/-- Await the image file (ensureFileExist, line 230), then bind the
rekall session (lines 233-243); the second component records whether the
session was opened. -/
def dumpFromImage (env : Env) (imagePath : String) : Except PyExit Unit × Bool :=
  if env.imageAppears then (dumpWithSession env, true)
  else (Except.error (PyExit.exc ("File does not exist: " ++ imagePath)), false)

/-- _dump (lines 210-312).  With a vmem argument the extension is checked
before anything else (lines 215-219, sys.exit(1) on mismatch, before the
session of line 233 is opened, with config["image"] set to the vmem
path); without one, config.json is awaited and read (lines 223-228). -/
def dumpMain (env : Env) : Except PyExit Unit × Bool :=
  if env.interrupt then (Except.error PyExit.keyboardInterrupt, false)
  else
    match env.vmem with
    | some p =>
      if env.vmemExt = ".vmem" then dumpFromImage env p
      else (Except.error (PyExit.sysExit 1), false)
    | none =>
      if env.configAppears then dumpFromImage env env.configImage
      else (Except.error (PyExit.exc ("File does not exist: config.json")), false)

/-- dump (lines 320-324): run _dump and swallow KeyboardInterrupt. -/
def dumpTop (env : Env) : Except PyExit Unit × Bool :=
  match dumpMain env with
  | (Except.error PyExit.keyboardInterrupt, b) => (Except.ok (), b)
  | r => r

/-- The resulting process exit status: 0 on normal return (including a
swallowed interrupt), the argument of sys.exit, and 1 for an uncaught
exception.  The keyboardInterrupt branch is unreachable because dumpTop
catches it. -/
def exitCode (env : Env) : Nat :=
  match (dumpTop env).1 with
  | Except.ok _ => 0
  | Except.error (PyExit.sysExit n) => n
  | Except.error (PyExit.exc _) => 1
  | Except.error PyExit.keyboardInterrupt => 130

/-- Whether an Except value is a success. -/
def exceptOk {ε α : Type} : Except ε α → Bool
  | Except.ok _ => true
  | Except.error _ => false

/-- All the conditions a non-interrupted run needs in order to finish
normally. -/
def runOk (env : Env) : Bool :=
  (match env.vmem with
   | some _ => decide (env.vmemExt = ".vmem")
   | none => env.configAppears)
  && env.imageAppears
  && env.lsassFound
  && (if env.lsaisoFound && env.vmem.isSome then
        exceptOk (cg env.cgImageSize env.cgMeta env.physRead env.outputDirExists)
      else true)

/-- CLAIM C5: a failing physical read of any collected Secure World page
is not caught: read_secure_world returns the error, _cg propagates it,
and the whole run terminates abnormally with a non-zero exit status. -/
theorem c5_secure_world_failure (env : Env) (p : String)
    (hvmem : env.vmem = some p) (hext : env.vmemExt = ".vmem")
    (himg : env.imageAppears = true) (hlsass : env.lsassFound = true)
    (hlsaiso : env.lsaisoFound = true) (hint : env.interrupt = false)
    (hfail : ∃ a ∈ secure_world_pages env.cgImageSize env.cgMeta,
        ∃ e, env.physRead a PAGE_SIZE = Except.error e) :
    (∃ e, read_secure_world env.physRead (secure_world_pages env.cgImageSize env.cgMeta)
        = Except.error e)
    ∧ (∃ e, cg env.cgImageSize env.cgMeta env.physRead env.outputDirExists
        = Except.error e)
    ∧ exitCode env = 1 := by
  obtain ⟨e, he⟩ := read_secure_world_error env.physRead _ hfail
  have hcg : cg env.cgImageSize env.cgMeta env.physRead env.outputDirExists
      = Except.error e := by
    simp only [cg, he]
  refine ⟨⟨e, he⟩, ⟨e, hcg⟩, ?_⟩
  simp [exitCode, dumpTop, dumpMain, dumpFromImage, dumpWithSession, hvmem, hext,
    himg, hlsass, hlsaiso, hint, hcg]

/-- A concrete environment in which every precondition of the Secure
World path holds but the physical read capability always raises. -/
def envC5 : Env :=
  ⟨some "mem.vmem", ".vmem", true, "mem.vmem", true, true, true, 4096,
    fun _ => ⟨2, 1, 0⟩, fun _ _ => Except.error "read beyond end of file", true, false⟩

/-- CLAIM C5 (witness): the propagation theorem applied to envC5, whose
single scanned page fails to read. -/
theorem c5_secure_world_failure_witness :
    (∃ e, read_secure_world envC5.physRead
        (secure_world_pages envC5.cgImageSize envC5.cgMeta) = Except.error e)
    ∧ (∃ e, cg envC5.cgImageSize envC5.cgMeta envC5.physRead envC5.outputDirExists
        = Except.error e)
    ∧ exitCode envC5 = 1 :=
  c5_secure_world_failure envC5 "mem.vmem" rfl rfl rfl rfl rfl rfl
    ⟨0, by decide, "read beyond end of file", rfl⟩

/-- A concrete environment where the target process is found and no local
image is supplied, but config.json never appears within the polling
budget. -/
def envC6 : Env :=
  ⟨none, "", false, "img.vmem", true, true, false, 0,
    fun _ => ⟨0, 0, 0⟩, fun _ _ => Except.ok [], true, false⟩

/-- CLAIM C6 (counterexample): the run exits with status 1 although the
target process is present and no local-image extension problem exists
(no local image was supplied at all), refuting that the exit status is
non-zero exactly on a missing target process or a malformed extension. -/
theorem c6_exit_counterexample :
    exitCode envC6 = 1 ∧ envC6.lsassFound = true ∧ envC6.vmem = none
      ∧ envC6.interrupt = false := ⟨rfl, rfl, rfl, rfl⟩

/-- CLAIM C6 (amended): the exit status is zero exactly when the run is
interrupted or every run condition holds (good extension or config.json
appearing, image file appearing, lsass.exe found, and a successful Secure
World extraction when that path is taken); a wrong extension on a
supplied image makes the run exit 1 before any session is opened; an
interrupted run exits 0. -/
theorem c6_exit_characterization (env : Env) :
    (exitCode env = 0 ↔ (env.interrupt = true ∨ runOk env = true))
    ∧ (env.interrupt = false → ∀ p, env.vmem = some p → env.vmemExt ≠ ".vmem" →
        exitCode env = 1 ∧ (dumpMain env).2 = false)
    ∧ (env.interrupt = true → exitCode env = 0) := by
  refine ⟨?_, ?_, ?_⟩
  · by_cases hint : env.interrupt = true
    · simp [exitCode, dumpTop, dumpMain, hint]
    · rw [Bool.not_eq_true] at hint
      simp only [hint, Bool.false_eq_true, false_or]
      rcases hv : env.vmem with _ | p
      · by_cases hca : env.configAppears = true
        · by_cases hia : env.imageAppears = true
          · by_cases hls : env.lsassFound = true
            · simp [exitCode, dumpTop, dumpMain, dumpFromImage, dumpWithSession,
                runOk, hint, hv, hca, hia, hls]
            · rw [Bool.not_eq_true] at hls
              simp [exitCode, dumpTop, dumpMain, dumpFromImage, dumpWithSession,
                runOk, hint, hv, hca, hia, hls]
          · rw [Bool.not_eq_true] at hia
            simp [exitCode, dumpTop, dumpMain, dumpFromImage, runOk, hint, hv,
              hca, hia]
        · rw [Bool.not_eq_true] at hca
          simp [exitCode, dumpTop, dumpMain, runOk, hint, hv, hca]
      · by_cases hext : env.vmemExt = ".vmem"
        · by_cases hia : env.imageAppears = true
          · by_cases hls : env.lsassFound = true
            · by_cases hlo : env.lsaisoFound = true
              · rcases hcg : cg env.cgImageSize env.cgMeta env.physRead
                    env.outputDirExists with e | sw
                · simp [exitCode, dumpTop, dumpMain, dumpFromImage,
                    dumpWithSession, runOk, exceptOk, hint, hv, hext, hia, hls,
                    hlo, hcg]
                · simp [exitCode, dumpTop, dumpMain, dumpFromImage,
                    dumpWithSession, runOk, exceptOk, hint, hv, hext, hia, hls,
                    hlo, hcg]
              · rw [Bool.not_eq_true] at hlo
                simp [exitCode, dumpTop, dumpMain, dumpFromImage,
                  dumpWithSession, runOk, hint, hv, hext, hia, hls, hlo]
            · rw [Bool.not_eq_true] at hls
              simp [exitCode, dumpTop, dumpMain, dumpFromImage, dumpWithSession,
                runOk, hint, hv, hext, hia, hls]
          · rw [Bool.not_eq_true] at hia
            simp [exitCode, dumpTop, dumpMain, dumpFromImage, runOk, hint, hv,
              hext, hia]
        · simp [exitCode, dumpTop, dumpMain, runOk, hint, hv, hext]
  · intro hint p hp hext
    simp [exitCode, dumpTop, dumpMain, hint, hp, hext]
  · intro hint
    simp [exitCode, dumpTop, dumpMain, hint]

/-- CLAIM C6 (witness): the exit-status characterization applied to the
concrete environment envC6. -/
theorem c6_exit_characterization_witness :
    (exitCode envC6 = 0 ↔ (envC6.interrupt = true ∨ runOk envC6 = true))
    ∧ (envC6.interrupt = false → ∀ p, envC6.vmem = some p →
        envC6.vmemExt ≠ ".vmem" →
        exitCode envC6 = 1 ∧ (dumpMain envC6).2 = false)
    ∧ (envC6.interrupt = true → exitCode envC6 = 0) :=
  c6_exit_characterization envC6

/-- CLAIM C9 (counterexample): with the output directory absent, an
otherwise fully successful Secure World extraction fails with
FileNotFoundError at its write, because _cg never creates the directory;
this refutes that the directory is created before both output writes. -/
theorem c9_cg_counterexample :
    cg 4096 (fun _ => ⟨2, 1, 0⟩) (fun _ _ => Except.ok [7, 7]) false
      = Except.error "FileNotFoundError: output/" := rfl

/-- CLAIM C9 (amended): the Persist write of the main dump is preceded by
directory creation and therefore succeeds whether or not the directory
already exists; the Secure World write of _cg is not so guarded: with the
same successful reads it succeeds when the directory exists and fails
with FileNotFoundError when it does not. -/
theorem c9_output_dir (image_size : Nat) (meta : Nat → PfnMeta)
    (readp : Nat → Nat → Except String (List Nat)) (sw : List Nat)
    (hread : read_secure_world readp (secure_world_pages image_size meta)
      = Except.ok sw) :
    (∀ d : Bool, persistStep d = Except.ok ())
    ∧ cg image_size meta readp true = Except.ok sw
    ∧ cg image_size meta readp false = Except.error "FileNotFoundError: output/" := by
  refine ⟨?_, ?_, ?_⟩
  · intro d
    cases d <;> rfl
  · simp [cg, hread, openWriteInOutput]
  · simp [cg, hread, openWriteInOutput]

/-- CLAIM C9 (witness): the amended directory behavior on a concrete
one-page extraction. -/
theorem c9_output_dir_witness :
    (∀ d : Bool, persistStep d = Except.ok ())
    ∧ cg 4096 (fun _ => ⟨2, 1, 0⟩) (fun _ _ => Except.ok [7, 7]) true
        = Except.ok [7, 7]
    ∧ cg 4096 (fun _ => ⟨2, 1, 0⟩) (fun _ _ => Except.ok [7, 7]) false
        = Except.error "FileNotFoundError: output/" :=
  c9_output_dir 4096 (fun _ => ⟨2, 1, 0⟩) (fun _ _ => Except.ok [7, 7]) [7, 7] rfl

end Physmem
